import Mathlib

/-
Verification of the best-effort text re-decoding heuristic
(getBestEffortDecodedString) of the Harmonia music player, src/App.tsx.

A JavaScript string is modelled as a list of natural numbers, one per
16-bit code unit.  The optional input of the heuristic is modelled by
JSVal, which also covers the JavaScript null and undefined values that
the truthiness test of the source handles uniformly.
-/

/-- Model of the JavaScript values that can reach the heuristic:
undefined, null, or a string given as its sequence of 16-bit code units. -/
inductive JSVal where
  | undef : JSVal
  | null : JSVal
  | str (units : List Nat) : JSVal
deriving DecidableEq

/-- Step 1 scan of src/App.tsx lines 28-38: walks the code units, and as
long as every unit has a zero low byte (charCode & 0x00FF) and a high
byte (charCode >> 8) in the printable ASCII range [0x20, 0x7E], collects
the high bytes.  Returns none as soon as one unit fails the test,
mirroring the break with isMisinterpretedUTF16BE = false. -/
def utf16beScan : List Nat → Option (List Nat)
  | [] => some []
  | c :: rest =>
    if c % 256 = 0 ∧ 0x20 ≤ c / 256 ∧ c / 256 ≤ 0x7E then
      (utf16beScan rest).map (fun r => c / 256 :: r)
    else
      none

/-- Step 2 scan of src/App.tsx lines 40-46: the text is potentially a
byte sequence in disguise exactly when no code unit exceeds 255. -/
def isPotentiallyGarbled (s : List Nat) : Bool :=
  !(s.any fun c => decide (255 < c))

/-- Encoding of one Unicode code point as UTF-16 code units, as a
JavaScript string stores the result of TextDecoder.decode. -/
def utf16Encode (cp : Nat) : List Nat :=
  if cp < 0x10000 then [cp]
  else [0xD800 + (cp - 0x10000) / 0x400, 0xDC00 + (cp - 0x10000) % 0x400]

/-- UTF-16 code units of a sequence of code points. -/
def utf16OfCps : List Nat → List Nat
  | [] => []
  | cp :: rest => utf16Encode cp ++ utf16OfCps rest

/-- Modelled from the spec: the strict UTF-8 decoders used at
src/App.tsx line 53 is the platform TextDecoder, external to this
repository; this is one step of the WHATWG UTF-8 decoder, reading one
scalar value from the head of the byte list.  Overlong forms, surrogate
code points and values beyond U+10FFFF are rejected, as strict decoding
requires. -/
def utf8Step (b : Nat) (rest : List Nat) : Option (Nat × List Nat) :=
  if b ≤ 0x7F then
    some (b, rest)
  else if 0xC2 ≤ b ∧ b ≤ 0xDF then
    match rest with
    | b1 :: r =>
      if 0x80 ≤ b1 ∧ b1 ≤ 0xBF then
        some ((b - 0xC0) * 0x40 + (b1 - 0x80), r)
      else none
    | _ => none
  else if 0xE0 ≤ b ∧ b ≤ 0xEF then
    match rest with
    | b1 :: b2 :: r =>
      if (if b = 0xE0 then 0xA0 else 0x80) ≤ b1 ∧
          b1 ≤ (if b = 0xED then 0x9F else 0xBF) ∧
          0x80 ≤ b2 ∧ b2 ≤ 0xBF then
        some ((b - 0xE0) * 0x1000 + (b1 - 0x80) * 0x40 + (b2 - 0x80), r)
      else none
    | _ => none
  else if 0xF0 ≤ b ∧ b ≤ 0xF4 then
    match rest with
    | b1 :: b2 :: b3 :: r =>
      if (if b = 0xF0 then 0x90 else 0x80) ≤ b1 ∧
          b1 ≤ (if b = 0xF4 then 0x8F else 0xBF) ∧
          0x80 ≤ b2 ∧ b2 ≤ 0xBF ∧ 0x80 ≤ b3 ∧ b3 ≤ 0xBF then
        some ((b - 0xF0) * 0x40000 + (b1 - 0x80) * 0x1000 +
          (b2 - 0x80) * 0x40 + (b3 - 0x80), r)
      else none
    | _ => none
  else
    none

/-- Modelled from the spec: a representative fragment of the WHATWG
jis0208 index used by the platform Shift-JIS decoder.  The full index is
an external table of several thousand entries; pointers outside this
fragment are treated as unmapped, which in fatal mode means a decode
error. -/
def jis0208 : Nat → Option Nat
  | 0 => some 0x3000
  | 1 => some 0x3001
  | 2 => some 0x3002
  | 376 => some 0x30A1
  | 377 => some 0x30A2
  | _ => none

/-- Modelled from the spec: the strict Shift-JIS decoder used at
src/App.tsx line 57 is the platform TextDecoder, external to this
repository; this is one step of the WHATWG Shift_JIS decoder, reading
one code point from the head of the byte list.  ASCII bytes and 0x80
map to themselves, 0xA1-0xDF are half-width katakana, lead bytes
0x81-0x9F and 0xE0-0xFC start a double-byte sequence resolved through
the jis0208 index or the user-defined range. -/
def sjisStep (b : Nat) (rest : List Nat) : Option (Nat × List Nat) :=
  if b ≤ 0x80 then
    some (b, rest)
  else if 0xA1 ≤ b ∧ b ≤ 0xDF then
    some (0xFF61 + b - 0xA1, rest)
  else if (0x81 ≤ b ∧ b ≤ 0x9F) ∨ (0xE0 ≤ b ∧ b ≤ 0xFC) then
    match rest with
    | t :: r =>
      if (0x40 ≤ t ∧ t ≤ 0x7E) ∨ (0x80 ≤ t ∧ t ≤ 0xFC) then
        let offset : Nat := if t < 0x7F then 0x40 else 0x41
        let leadOffset : Nat := if b < 0xA0 then 0x81 else 0xC1
        let pointer : Nat := (b - leadOffset) * 188 + t - offset
        if 8836 ≤ pointer ∧ pointer ≤ 10715 then
          some (0xE000 - 8836 + pointer, r)
        else
          match jis0208 pointer with
          | some cp => some (cp, r)
          | none => none
      else none
    | _ => none
  else
    none

/-- Runs a one-code-point decode step over a whole byte list, failing if
any step fails, as a fatal TextDecoder does.  The fuel argument bounds
the recursion; every caller passes the length of the list, and each step
consumes at least the head byte, so the fuel never runs out. -/
def decodeLoop (step : Nat → List Nat → Option (Nat × List Nat)) :
    Nat → List Nat → Option (List Nat)
  | _, [] => some []
  | 0, _ :: _ => none
  | fuel + 1, b :: rest =>
    match step b rest with
    | none => none
    | some (cp, rest2) =>
      match decodeLoop step fuel rest2 with
      | none => none
      | some cps => some (cp :: cps)

/-- Modelled from the spec: TextDecoder with the default ignoreBOM
setting removes a leading UTF-8 byte order mark EF BB BF from the
stream before decoding. -/
def utf8StripBom : List Nat → List Nat
  | b0 :: b1 :: b2 :: rest =>
    if b0 = 0xEF ∧ b1 = 0xBB ∧ b2 = 0xBF then rest
    else b0 :: b1 :: b2 :: rest
  | s => s

/-- The call new TextDecoder with utf-8 and fatal true at src/App.tsx
line 53: strict UTF-8 decoding of the byte list to a JavaScript string
(UTF-16 code units), none on any decode error. -/
def utf8DecodeStr (s : List Nat) : Option (List Nat) :=
  match decodeLoop utf8Step (utf8StripBom s).length (utf8StripBom s) with
  | some cps => some (utf16OfCps cps)
  | none => none

/-- The call new TextDecoder with shift-jis and fatal true at
src/App.tsx line 57: strict Shift-JIS decoding of the byte list to a
JavaScript string, none on any decode error. -/
def sjisDecodeStr (s : List Nat) : Option (List Nat) :=
  match decodeLoop sjisStep s.length s with
  | some cps => some (utf16OfCps cps)
  | none => none

/-- src/App.tsx lines 56-59: try strict Shift-JIS; return the decoding
when it succeeds and differs from the input, the input otherwise (a
decode error is caught and falls through to return text). -/
def tryShiftJis (s : List Nat) : List Nat :=
  match sjisDecodeStr s with
  | some d => if d ≠ s then d else s
  | none => s

/-- src/App.tsx lines 40-59: the byte-range pre-check followed by the
UTF-8 and Shift-JIS reinterpretation attempts.  When some code unit
exceeds 255 the input is returned unchanged; otherwise strict UTF-8 is
tried first, and Shift-JIS only when UTF-8 fails or returns the
identical string. -/
def tryByteDecodes (s : List Nat) : List Nat :=
  if isPotentiallyGarbled s then
    match utf8DecodeStr s with
    | some d => if d ≠ s then d else tryShiftJis s
    | none => tryShiftJis s
  else
    s

/-- src/App.tsx lines 25-64, getBestEffortDecodedString: the falsy test
on the input returns the empty string for undefined, null and the empty
string; otherwise step 1 returns the high-byte reconstruction when the
whole string matches and the reconstruction is non-empty, and the
byte-reinterpretation steps run otherwise.  The function always returns
a string. -/
def getBestEffortDecodedString : JSVal → JSVal
  | JSVal.undef => JSVal.str []
  | JSVal.null => JSVal.str []
  | JSVal.str s =>
    if s.isEmpty then JSVal.str []
    else
      match utf16beScan s with
      | some r => if r.isEmpty then JSVal.str (tryByteDecodes s) else JSVal.str r
      | none => JSVal.str (tryByteDecodes s)

/-
Helper lemmas about the step 1 scan.
-/

theorem utf16beScan_eq_map (s : List Nat)
    (h : ∀ c ∈ s, c % 256 = 0 ∧ 0x20 ≤ c / 256 ∧ c / 256 ≤ 0x7E) :
    utf16beScan s = some (s.map (fun c => c / 256)) := by
  induction s with
  | nil => rfl
  | cons c t ih =>
    have hc := h c (List.mem_cons_self c t)
    have ht : ∀ x ∈ t, x % 256 = 0 ∧ 0x20 ≤ x / 256 ∧ x / 256 ≤ 0x7E :=
      fun x hx => h x (List.mem_cons_of_mem c hx)
    simp [utf16beScan, hc, ih ht]

theorem utf16beScan_none_of_fail (s : List Nat)
    (h : ∃ c ∈ s, ¬(c % 256 = 0 ∧ 0x20 ≤ c / 256 ∧ c / 256 ≤ 0x7E)) :
    utf16beScan s = none := by
  induction s with
  | nil => simp at h
  | cons c t ih =>
    by_cases hc : c % 256 = 0 ∧ 0x20 ≤ c / 256 ∧ c / 256 ≤ 0x7E
    · obtain ⟨x, hx, hnx⟩ := h
      rcases List.mem_cons.mp hx with rfl | hx2
      · exact absurd hc hnx
      · simp [utf16beScan, hc, ih ⟨x, hx2, hnx⟩]
    · simp [utf16beScan, hc]

theorem utf16beScan_cons_none_of_le255 (b : Nat) (t : List Nat) (hb : b ≤ 255) :
    utf16beScan (b :: t) = none := by
  have hc : ¬(b % 256 = 0 ∧ 0x20 ≤ b / 256 ∧ b / 256 ≤ 0x7E) := by
    rintro ⟨h1, h2, -⟩
    omega
  simp [utf16beScan, hc]

theorem utf16beScan_cons_ne_nil (b : Nat) (t r : List Nat)
    (h : utf16beScan (b :: t) = some r) : r ≠ [] := by
  intro hr
  subst hr
  simp only [utf16beScan] at h
  split at h
  · rcases hs : utf16beScan t with - | r2 <;> rw [hs] at h <;> simp at h
  · simp at h

/-
Helper lemmas about the decoders.
-/

theorem isPotentiallyGarbled_of_le (s : List Nat) (h : ∀ c ∈ s, c ≤ 255) :
    isPotentiallyGarbled s = true := by
  simp only [isPotentiallyGarbled, Bool.not_eq_true', List.any_eq_false,
    decide_eq_true_eq]
  intro c hc
  have := h c hc
  omega

theorem isPotentiallyGarbled_of_wide (s : List Nat) (h : ∃ c ∈ s, 255 < c) :
    isPotentiallyGarbled s = false := by
  obtain ⟨c, hc, hlt⟩ := h
  have hany : s.any (fun c => decide (255 < c)) = true :=
    List.any_eq_true.mpr ⟨c, hc, by simpa using hlt⟩
  simp [isPotentiallyGarbled, hany]

theorem utf16Encode_ne_nil (cp : Nat) : utf16Encode cp ≠ [] := by
  unfold utf16Encode
  split <;> simp

theorem utf16OfCps_cons_ne_nil (cp : Nat) (cps : List Nat) :
    utf16OfCps (cp :: cps) ≠ [] := by
  simp only [utf16OfCps, ne_eq, List.append_eq_nil]
  rintro ⟨h, -⟩
  exact utf16Encode_ne_nil cp h

theorem decodeLoop_cons_ne_nil (step : Nat → List Nat → Option (Nat × List Nat))
    (fuel b : Nat) (rest cps : List Nat)
    (h : decodeLoop step fuel (b :: rest) = some cps) : cps ≠ [] := by
  cases fuel with
  | zero => simp [decodeLoop] at h
  | succ n =>
    simp only [decodeLoop] at h
    split at h
    · simp at h
    · split at h
      · simp at h
      · rw [← Option.some_inj.mp h]
        simp

theorem utf8StripBom_ne_nil (s : List Nat) (hs : s ≠ [])
    (hbom : s ≠ [0xEF, 0xBB, 0xBF]) : utf8StripBom s ≠ [] := by
  match s with
  | [] => exact absurd rfl hs
  | [b0] => simp [utf8StripBom]
  | [b0, b1] => simp [utf8StripBom]
  | b0 :: b1 :: b2 :: rest =>
    simp only [utf8StripBom]
    split
    · rename_i hb
      obtain ⟨rfl, rfl, rfl⟩ := hb
      intro hr
      exact hbom (by rw [hr])
    · simp

theorem utf8DecodeStr_ne_nil (s d : List Nat) (hs : s ≠ [])
    (hbom : s ≠ [0xEF, 0xBB, 0xBF]) (h : utf8DecodeStr s = some d) : d ≠ [] := by
  have hbody := utf8StripBom_ne_nil s hs hbom
  unfold utf8DecodeStr at h
  split at h
  · rename_i cps hl
    obtain rfl : utf16OfCps cps = d := Option.some_inj.mp h
    cases hb : utf8StripBom s with
    | nil => exact absurd hb hbody
    | cons b rest =>
      rw [hb] at hl
      have hcps := decodeLoop_cons_ne_nil utf8Step _ b rest cps hl
      cases cps with
      | nil => exact absurd rfl hcps
      | cons cp cps2 => exact utf16OfCps_cons_ne_nil cp cps2
  · simp at h

theorem sjisDecodeStr_ne_nil (s d : List Nat) (hs : s ≠ [])
    (h : sjisDecodeStr s = some d) : d ≠ [] := by
  unfold sjisDecodeStr at h
  split at h
  · rename_i cps hl
    obtain rfl : utf16OfCps cps = d := Option.some_inj.mp h
    cases s with
    | nil => exact absurd rfl hs
    | cons b rest =>
      have hcps := decodeLoop_cons_ne_nil sjisStep _ b rest cps hl
      cases cps with
      | nil => exact absurd rfl hcps
      | cons cp cps2 => exact utf16OfCps_cons_ne_nil cp cps2
  · simp at h

/-
Characterization of the branches of getBestEffortDecodedString.
-/

theorem getBest_str_scanned (b : Nat) (t r : List Nat)
    (hscan : utf16beScan (b :: t) = some r) :
    getBestEffortDecodedString (JSVal.str (b :: t)) = JSVal.str r := by
  have hr : r.isEmpty = false := by
    cases r with
    | nil => exact absurd rfl (utf16beScan_cons_ne_nil b t [] hscan)
    | cons x xs => rfl
  simp [getBestEffortDecodedString, hscan, hr]

theorem getBest_str_unscanned (b : Nat) (t : List Nat)
    (hscan : utf16beScan (b :: t) = none) :
    getBestEffortDecodedString (JSVal.str (b :: t)) =
      JSVal.str (tryByteDecodes (b :: t)) := by
  simp [getBestEffortDecodedString, hscan]

theorem getBest_str_le255 (b : Nat) (t : List Nat) (h : ∀ c ∈ b :: t, c ≤ 255) :
    getBestEffortDecodedString (JSVal.str (b :: t)) =
      JSVal.str (tryByteDecodes (b :: t)) :=
  getBest_str_unscanned b t
    (utf16beScan_cons_none_of_le255 b t (h b (List.mem_cons_self b t)))

theorem repair_unchanged_of_wide (s : List Nat)
    (hfail : ∃ c ∈ s, ¬(c % 256 = 0 ∧ 0x20 ≤ c / 256 ∧ c / 256 ≤ 0x7E))
    (hwide : ∃ c ∈ s, 255 < c) :
    getBestEffortDecodedString (JSVal.str s) = JSVal.str s := by
  cases s with
  | nil =>
    obtain ⟨c, hc, -⟩ := hwide
    simp at hc
  | cons b t =>
    rw [getBest_str_unscanned b t (utf16beScan_none_of_fail _ hfail)]
    unfold tryByteDecodes
    rw [isPotentiallyGarbled_of_wide _ hwide]
    simp

/-
Claim theorems.
-/

/-- Claim C1: for every non-empty string in which every 16-bit code unit
has a zero low byte and a high byte in the printable ASCII range 0x20 to
0x7E inclusive, getBestEffortDecodedString returns the string formed by
each unit high byte as a standalone character code, with no minimum
length gate. -/
theorem claim_c1 (s : List Nat) (hne : s ≠ [])
    (h : ∀ c ∈ s, c % 256 = 0 ∧ 0x20 ≤ c / 256 ∧ c / 256 ≤ 0x7E) :
    getBestEffortDecodedString (JSVal.str s) =
      JSVal.str (s.map (fun c => c / 256)) := by
  cases s with
  | nil => exact absurd rfl hne
  | cons b t => exact getBest_str_scanned b t _ (utf16beScan_eq_map _ h)

/-- Witness for claim C1: the code units 0x4100 0x4200 0x4300 repair to
the string ABC, and the single-unit input 0x4100 repairs to A. -/
theorem claim_c1_witness :
    getBestEffortDecodedString (JSVal.str [0x4100, 0x4200, 0x4300]) =
      JSVal.str [0x41, 0x42, 0x43] ∧
    getBestEffortDecodedString (JSVal.str [0x4100]) = JSVal.str [0x41] :=
  ⟨claim_c1 [0x4100, 0x4200, 0x4300] (by decide) (by decide),
   claim_c1 [0x4100] (by decide) (by decide)⟩

/-- Claim C4 counterexample: the claim states that every string holding
a code unit above 255 is returned unchanged, but the single unit 0x4100
exceeds 255 and is reconstructed by step 1 to the one-character string A
instead of being returned unchanged. -/
theorem claim_c4_counterexample :
    (∃ c ∈ ([0x4100] : List Nat), 255 < c) ∧
    getBestEffortDecodedString (JSVal.str [0x4100]) ≠ JSVal.str [0x4100] := by
  decide

/-- Claim C4 as amended: a string containing a code unit above 255 is
returned unchanged provided step 1 does not classify it as
misinterpreted UTF-16BE, that is, some unit has a nonzero low byte or a
high byte outside the range 0x20 to 0x7E. -/
theorem claim_c4_amended (s : List Nat)
    (hwide : ∃ c ∈ s, 255 < c)
    (hfail : ∃ c ∈ s, ¬(c % 256 = 0 ∧ 0x20 ≤ c / 256 ∧ c / 256 ≤ 0x7E)) :
    getBestEffortDecodedString (JSVal.str s) = JSVal.str s :=
  repair_unchanged_of_wide s hfail hwide

/-- Witness for the amended claim C4 at the single wide unit 0x3042,
whose low byte is nonzero. -/
theorem claim_c4_witness :
    getBestEffortDecodedString (JSVal.str [0x3042]) = JSVal.str [0x3042] :=
  claim_c4_amended [0x3042] (by decide) (by decide)

/-- Claim C5 counterexample: the claim states that the undefined input
is returned as undefined, but the source returns the empty string for a
falsy input, so the result of getBestEffortDecodedString on undefined is
not undefined. -/
theorem claim_c5_counterexample :
    getBestEffortDecodedString JSVal.undef ≠ JSVal.undef := by decide

/-- Claim C5 as amended: an undefined input maps to the empty string,
and the empty string maps to itself, both before any repair step runs. -/
theorem claim_c5_amended :
    getBestEffortDecodedString JSVal.undef = JSVal.str [] ∧
    getBestEffortDecodedString (JSVal.str []) = JSVal.str [] := by decide

/-- Claim C8: when step 1 does not classify the string as misinterpreted
(some unit has a nonzero low byte or a high byte outside 0x20 to 0x7E)
and some code unit exceeds 255, getBestEffortDecodedString returns the
input unchanged, the byte-range pre-check short-circuiting the UTF-8 and
Shift-JIS reinterpretation steps. -/
theorem claim_c8 (s : List Nat)
    (hfail : ∃ c ∈ s, ¬(c % 256 = 0 ∧ 0x20 ≤ c / 256 ∧ c / 256 ≤ 0x7E))
    (hwide : ∃ c ∈ s, 255 < c) :
    getBestEffortDecodedString (JSVal.str s) = JSVal.str s :=
  repair_unchanged_of_wide s hfail hwide

/-- Witness for claim C8 at the single genuine wide character 0x65E5. -/
theorem claim_c8_witness :
    getBestEffortDecodedString (JSVal.str [0x65E5]) = JSVal.str [0x65E5] :=
  claim_c8 [0x65E5] (by decide) (by decide)

/-- Claim C9: conditional idempotence of getBestEffortDecodedString; on
any fixed point of the repair, applying it twice still yields the
input. -/
theorem claim_c9 (v : JSVal) (h : getBestEffortDecodedString v = v) :
    getBestEffortDecodedString (getBestEffortDecodedString v) = v := by
  rw [h]
  exact h

/-- Witness for claim C9 at the fixed point 0xFF, a byte invalid in both
UTF-8 and Shift-JIS. -/
theorem claim_c9_witness :
    getBestEffortDecodedString
      (getBestEffortDecodedString (JSVal.str [0xFF])) = JSVal.str [0xFF] :=
  claim_c9 (JSVal.str [0xFF]) (by decide)

theorem tryShiftJis_some (s d : List Nat) (hsj : sjisDecodeStr s = some d)
    (hne : d ≠ s) : tryShiftJis s = d := by
  unfold tryShiftJis
  rw [hsj]
  simp [hne]

theorem tryShiftJis_id_of_none (s : List Nat) (hsj : sjisDecodeStr s = none) :
    tryShiftJis s = s := by
  unfold tryShiftJis
  rw [hsj]

theorem tryShiftJis_id_of_same (s : List Nat) (hsj : sjisDecodeStr s = some s) :
    tryShiftJis s = s := by
  unfold tryShiftJis
  rw [hsj]
  simp

theorem tryByteDecodes_utf8 (s d : List Nat)
    (hg : isPotentiallyGarbled s = true) (hdec : utf8DecodeStr s = some d)
    (hne : d ≠ s) : tryByteDecodes s = d := by
  unfold tryByteDecodes
  rw [hg, hdec]
  simp [hne]

theorem tryByteDecodes_sjis_after_none (s : List Nat)
    (hg : isPotentiallyGarbled s = true) (h8 : utf8DecodeStr s = none) :
    tryByteDecodes s = tryShiftJis s := by
  unfold tryByteDecodes
  rw [hg, h8]
  simp

theorem tryByteDecodes_sjis_after_same (s : List Nat)
    (hg : isPotentiallyGarbled s = true) (h8 : utf8DecodeStr s = some s) :
    tryByteDecodes s = tryShiftJis s := by
  unfold tryByteDecodes
  rw [hg, h8]
  simp

/-- Claim C2: for every string whose code units are all at most 255,
when reinterpreting it as one byte per code unit yields a byte sequence
that strictly decodes as UTF-8 to a string different from the input,
getBestEffortDecodedString returns that UTF-8 decoding. -/
theorem claim_c2 (s d : List Nat) (hle : ∀ c ∈ s, c ≤ 255)
    (hdec : utf8DecodeStr s = some d) (hne : d ≠ s) :
    getBestEffortDecodedString (JSVal.str s) = JSVal.str d := by
  cases s with
  | nil =>
    have h0 : utf8DecodeStr [] = some [] := by decide
    rw [h0] at hdec
    obtain rfl : ([] : List Nat) = d := Option.some_inj.mp hdec
    exact absurd rfl hne
  | cons b t =>
    rw [getBest_str_le255 b t hle]
    rw [tryByteDecodes_utf8 _ d (isPotentiallyGarbled_of_le _ hle) hdec hne]

/-- Witness for claim C2: the byte values E6 97 A5 E6 9C AC, one per
code unit, are valid UTF-8 and repair to the two CJK characters with
code units 0x65E5 and 0x672C. -/
theorem claim_c2_witness :
    getBestEffortDecodedString
      (JSVal.str [0xE6, 0x97, 0xA5, 0xE6, 0x9C, 0xAC]) =
      JSVal.str [0x65E5, 0x672C] :=
  claim_c2 [0xE6, 0x97, 0xA5, 0xE6, 0x9C, 0xAC] [0x65E5, 0x672C]
    (by decide) (by decide) (by decide)

/-- Claim C3: for every string whose code units are all at most 255,
when the strict UTF-8 decode of the byte sequence fails or returns the
identical string, and the strict Shift-JIS decode succeeds with a
result different from the input, getBestEffortDecodedString returns the
Shift-JIS decoding. -/
theorem claim_c3 (s d : List Nat) (hle : ∀ c ∈ s, c ≤ 255)
    (h8 : utf8DecodeStr s = none ∨ utf8DecodeStr s = some s)
    (hsj : sjisDecodeStr s = some d) (hne : d ≠ s) :
    getBestEffortDecodedString (JSVal.str s) = JSVal.str d := by
  cases s with
  | nil =>
    have h0 : sjisDecodeStr [] = some [] := by decide
    rw [h0] at hsj
    obtain rfl : ([] : List Nat) = d := Option.some_inj.mp hsj
    exact absurd rfl hne
  | cons b t =>
    rw [getBest_str_le255 b t hle]
    have hg := isPotentiallyGarbled_of_le _ hle
    have hj := tryShiftJis_some _ d hsj hne
    rcases h8 with h8 | h8
    · rw [tryByteDecodes_sjis_after_none _ hg h8, hj]
    · rw [tryByteDecodes_sjis_after_same _ hg h8, hj]

/-- Witness for claim C3: the single byte 0xB1 is invalid UTF-8 (a bare
continuation byte) but decodes as Shift-JIS to half-width katakana
0xFF71. -/
theorem claim_c3_witness :
    getBestEffortDecodedString (JSVal.str [0xB1]) = JSVal.str [0xFF71] :=
  claim_c3 [0xB1] [0xFF71] (by decide) (Or.inl (by decide)) (by decide)
    (by decide)

/-- Claim C7: for every string whose code units are all at most 255,
when the byte sequence is invalid under strict UTF-8 decoding and also
invalid under strict Shift-JIS decoding, getBestEffortDecodedString
returns the input unchanged. -/
theorem claim_c7 (s : List Nat) (hle : ∀ c ∈ s, c ≤ 255)
    (h8 : utf8DecodeStr s = none) (hsj : sjisDecodeStr s = none) :
    getBestEffortDecodedString (JSVal.str s) = JSVal.str s := by
  cases s with
  | nil => exact absurd h8 (by decide)
  | cons b t =>
    rw [getBest_str_le255 b t hle]
    rw [tryByteDecodes_sjis_after_none _ (isPotentiallyGarbled_of_le _ hle) h8,
      tryShiftJis_id_of_none _ hsj]

/-- Witness for claim C7 at the single byte 0xFF, invalid in both
encodings. -/
theorem claim_c7_witness :
    getBestEffortDecodedString (JSVal.str [0xFF]) = JSVal.str [0xFF] :=
  claim_c7 [0xFF] (by decide) (by decide) (by decide)

theorem tryByteDecodes_id_of_wide (s : List Nat)
    (hg : isPotentiallyGarbled s = false) : tryByteDecodes s = s := by
  unfold tryByteDecodes
  rw [hg]
  simp

theorem tryShiftJis_cases (s : List Nat) :
    tryShiftJis s = s ∨
    ∃ d, sjisDecodeStr s = some d ∧ tryShiftJis s = d := by
  cases hsj : sjisDecodeStr s with
  | none => exact Or.inl (tryShiftJis_id_of_none s hsj)
  | some d =>
    by_cases hne : d = s
    · exact Or.inl (tryShiftJis_id_of_same s (hne ▸ hsj))
    · exact Or.inr ⟨d, rfl, tryShiftJis_some s d hsj hne⟩

theorem tryByteDecodes_cases (s : List Nat) :
    tryByteDecodes s = s ∨
    (∃ d, utf8DecodeStr s = some d ∧ tryByteDecodes s = d) ∨
    (∃ d, sjisDecodeStr s = some d ∧ tryByteDecodes s = d) := by
  cases hg : isPotentiallyGarbled s with
  | false => exact Or.inl (tryByteDecodes_id_of_wide s hg)
  | true =>
    cases h8 : utf8DecodeStr s with
    | none =>
      have hb := tryByteDecodes_sjis_after_none s hg h8
      rcases tryShiftJis_cases s with h | ⟨d, hsj, hd⟩
      · exact Or.inl (by rw [hb, h])
      · exact Or.inr (Or.inr ⟨d, hsj, by rw [hb, hd]⟩)
    | some d =>
      by_cases hne : d = s
      · have hb := tryByteDecodes_sjis_after_same s hg (hne ▸ h8)
        rcases tryShiftJis_cases s with h | ⟨d2, hsj, hd⟩
        · exact Or.inl (by rw [hb, h])
        · exact Or.inr (Or.inr ⟨d2, hsj, by rw [hb, hd]⟩)
      · exact Or.inr (Or.inl ⟨d, rfl, tryByteDecodes_utf8 s d hg h8 hne⟩)

/-- Claim C6: getBestEffortDecodedString is total; every input yields a
defined result, and the result is one of the enumerated outcomes: the
empty string for a falsy input, the step 1 high-byte reconstruction, a
successful strict UTF-8 decoding, a successful strict Shift-JIS
decoding, or the original input when no candidate decoding applies, the
decode failures having fallen through to the next step. -/
theorem claim_c6 (v : JSVal) :
    getBestEffortDecodedString v = JSVal.str [] ∨
    getBestEffortDecodedString v = v ∨
    (∃ s r, v = JSVal.str s ∧ utf16beScan s = some r ∧
      getBestEffortDecodedString v = JSVal.str r) ∨
    (∃ s d, v = JSVal.str s ∧ utf8DecodeStr s = some d ∧
      getBestEffortDecodedString v = JSVal.str d) ∨
    (∃ s d, v = JSVal.str s ∧ sjisDecodeStr s = some d ∧
      getBestEffortDecodedString v = JSVal.str d) := by
  cases v with
  | undef => exact Or.inl rfl
  | null => exact Or.inl rfl
  | str s =>
    cases s with
    | nil => exact Or.inl rfl
    | cons b t =>
      cases hscan : utf16beScan (b :: t) with
      | some r =>
        exact Or.inr (Or.inr (Or.inl ⟨b :: t, r, rfl, hscan,
          getBest_str_scanned b t r hscan⟩))
      | none =>
        have hb := getBest_str_unscanned b t hscan
        rcases tryByteDecodes_cases (b :: t) with h | ⟨d, h8, hd⟩ | ⟨d, hsj, hd⟩
        · exact Or.inr (Or.inl (by rw [hb, h]))
        · exact Or.inr (Or.inr (Or.inr (Or.inl ⟨b :: t, d, rfl, h8,
            by rw [hb, hd]⟩)))
        · exact Or.inr (Or.inr (Or.inr (Or.inr ⟨b :: t, d, rfl, hsj,
            by rw [hb, hd]⟩)))

theorem repair_is_str (v : JSVal) :
    ∃ s, getBestEffortDecodedString v = JSVal.str s := by
  cases v with
  | undef => exact ⟨[], rfl⟩
  | null => exact ⟨[], rfl⟩
  | str s =>
    cases s with
    | nil => exact ⟨[], rfl⟩
    | cons b t =>
      cases hscan : utf16beScan (b :: t) with
      | some r => exact ⟨r, getBest_str_scanned b t r hscan⟩
      | none => exact ⟨tryByteDecodes (b :: t), getBest_str_unscanned b t hscan⟩

theorem tryByteDecodes_ne_nil (b : Nat) (t : List Nat)
    (hbom : b :: t ≠ [0xEF, 0xBB, 0xBF]) : tryByteDecodes (b :: t) ≠ [] := by
  rcases tryByteDecodes_cases (b :: t) with h | ⟨d, h8, hd⟩ | ⟨d, hsj, hd⟩
  · rw [h]
    simp
  · rw [hd]
    exact utf8DecodeStr_ne_nil (b :: t) d (by simp) hbom h8
  · rw [hd]
    exact sjisDecodeStr_ne_nil (b :: t) d (by simp) hsj

theorem repair_ne_nil (b : Nat) (t : List Nat)
    (hbom : b :: t ≠ [0xEF, 0xBB, 0xBF]) :
    getBestEffortDecodedString (JSVal.str (b :: t)) ≠ JSVal.str [] := by
  cases hscan : utf16beScan (b :: t) with
  | some r =>
    rw [getBest_str_scanned b t r hscan]
    intro h
    injection h with h2
    exact utf16beScan_cons_ne_nil b t r hscan h2
  | none =>
    rw [getBest_str_unscanned b t hscan]
    intro h
    injection h with h2
    exact tryByteDecodes_ne_nil b t hbom h2

/-- Claim C10 counterexample: the claim states that the result is empty
only for an undefined, null or empty input, but the non-empty input
whose code units are the UTF-8 byte order mark EF BB BF repairs to the
empty string, because the platform UTF-8 decoder strips the byte order
mark and the stripped result differs from the input. -/
theorem claim_c10_counterexample :
    getBestEffortDecodedString (JSVal.str [0xEF, 0xBB, 0xBF]) = JSVal.str [] ∧
    JSVal.str [0xEF, 0xBB, 0xBF] ≠ JSVal.undef ∧
    JSVal.str [0xEF, 0xBB, 0xBF] ≠ JSVal.null ∧
    ([0xEF, 0xBB, 0xBF] : List Nat) ≠ [] := by decide

/-- Claim C10 as amended: getBestEffortDecodedString always returns a
string, never undefined or null, and the result is the empty string
exactly when the input is undefined, null, the empty string, or the
three-unit string holding the UTF-8 byte order mark EF BB BF. -/
theorem claim_c10_amended (v : JSVal) :
    (∃ s, getBestEffortDecodedString v = JSVal.str s) ∧
    (getBestEffortDecodedString v = JSVal.str [] ↔
      v = JSVal.undef ∨ v = JSVal.null ∨ v = JSVal.str [] ∨
      v = JSVal.str [0xEF, 0xBB, 0xBF]) := by
  constructor
  · exact repair_is_str v
  · constructor
    · intro h
      cases v with
      | undef => exact Or.inl rfl
      | null => exact Or.inr (Or.inl rfl)
      | str s =>
        cases s with
        | nil => exact Or.inr (Or.inr (Or.inl rfl))
        | cons b t =>
          by_cases hbom : b :: t = [0xEF, 0xBB, 0xBF]
          · exact Or.inr (Or.inr (Or.inr (by rw [hbom])))
          · exact absurd h (repair_ne_nil b t hbom)
    · intro h
      rcases h with rfl | rfl | rfl | rfl <;> decide
